import Mathlib

/-!
Verification development for the two release-management scripts
`prune_old_dev_tags.py` and `resolve_dev_version.py`.

Python strings are modelled as `List Char` (`Str`).  Regular-expression
matching is modelled by explicit character-level scanners: every regex in
the scripts has the shape "digit-run, literal, digit-run, ..." where each
`\d+` / `[0-9]+` is followed by a character that is not a digit (or by the
end of the pattern), so greedy scanning without backtracking is equivalent
to the regex engine's behaviour.  Character classes are modelled over the
ASCII range (Python's `\d` additionally admits non-ASCII decimal digits,
identically in the reference grammar and in the code's regexes; non-ASCII
input is outside the modelled scope).  The `$` anchor is modelled as the end
of the input, the grammar's full-match reading; tag names come from
`splitlines()` and contain no newline, so Python's `$`-before-a-trailing-
newline subtlety cannot arise on the scripts' inputs.  Subprocess calls are modelled by an
environment function giving each git command an exit code, and the scripts'
observable behaviour (stdout lines, issued git commands, exit status) is
returned as data.
-/

namespace MetaplayCli

/-- Python strings, modelled as lists of characters. -/
abbrev Str := List Char

/-- Conversion from Lean string literals, used for the scripts' literal text. -/
def lit (s : String) : Str := s.data

/-- Decimal value of a digit string, as `int()` computes it for plain digits. -/
def digitsToNat (l : Str) : Nat :=
  l.foldl (fun n c => 10 * n + (c.toNat - '0'.toNat)) 0

/-- Greedy scan of a leading digit run: the longest all-digit prefix and the rest. -/
def takeDigits : Str → Str × Str
  | [] => ([], [])
  | c :: cs =>
    if c.isDigit then
      let p := takeDigits cs
      (c :: p.1, p.2)
    else ([], c :: cs)

/-- A `\d+` group: must scan at least one digit. -/
def reqDigits (s : Str) : Option (Str × Str) :=
  let p := takeDigits s
  if p.1 = [] then none else some p

/-- Match a literal character sequence at the front of the input. -/
def dropLit : Str → Str → Option Str
  | [], s => some s
  | _ :: _, [] => none
  | c :: p, x :: s => if x = c then dropLit p s else none

/-- The literal `-dev.` infix of the dev-tag grammar. -/
def devLit : Str := '-' :: 'd' :: 'e' :: 'v' :: '.' :: []

/-- `VERSION_RE` matching of `prune_old_dev_tags.py` (`parse_tag`):
`^(?P<major>\d+)\.(?P<minor>\d+)\.(?P<patch>\d+)(?:-dev\.(?P<dev>\d+))?$`,
returning the numeric groups. -/
def parse_tag (s : Str) : Option (Nat × Nat × Nat × Option Nat) :=
  (reqDigits s).bind fun p1 =>
  (dropLit ['.'] p1.2).bind fun s2 =>
  (reqDigits s2).bind fun p2 =>
  (dropLit ['.'] p2.2).bind fun s3 =>
  (reqDigits s3).bind fun p3 =>
  match p3.2 with
  | [] => some (digitsToNat p1.1, digitsToNat p2.1, digitsToNat p3.1, none)
  | _ :: _ =>
    (dropLit devLit p3.2).bind fun s4 =>
    (reqDigits s4).bind fun p4 =>
    match p4.2 with
    | [] => some (digitsToNat p1.1, digitsToNat p2.1, digitsToNat p3.1,
        some (digitsToNat p4.1))
    | _ :: _ => none

/-- A nonempty, all-digit string (one `\d+` group of the reference grammar). -/
def DigitsNE (l : Str) : Prop := l ≠ [] ∧ ∀ c ∈ l, c.isDigit = true

/-- The rest of the input does not start with a digit (so a greedy digit run
cannot be extended into it). -/
def headNotDigit : Str → Prop
  | [] => True
  | c :: _ => c.isDigit = false

/-- Declarative reading of the official form `^\d+\.\d+\.\d+$` with its values. -/
def OffForm (s : Str) (a b c : Nat) : Prop :=
  ∃ d1 d2 d3, DigitsNE d1 ∧ DigitsNE d2 ∧ DigitsNE d3 ∧
    s = d1 ++ '.' :: d2 ++ '.' :: d3 ∧
    a = digitsToNat d1 ∧ b = digitsToNat d2 ∧ c = digitsToNat d3

/-- Declarative reading of the dev form `^\d+\.\d+\.\d+-dev\.\d+$` with its values. -/
def DevForm (s : Str) (a b c n : Nat) : Prop :=
  ∃ d1 d2 d3 d4, DigitsNE d1 ∧ DigitsNE d2 ∧ DigitsNE d3 ∧ DigitsNE d4 ∧
    s = d1 ++ '.' :: d2 ++ '.' :: d3 ++ devLit ++ d4 ∧
    a = digitsToNat d1 ∧ b = digitsToNat d2 ∧ c = digitsToNat d3 ∧ n = digitsToNat d4

/-- Full-match semantics of the reference grammar
`^(\d+)\.(\d+)\.(\d+)(-dev\.(\d+))?$` together with the extracted values. -/
def GrammarFull (s : Str) (a b c : Nat) (d : Option Nat) : Prop :=
  (d = none ∧ OffForm s a b c) ∨ ∃ n, d = some n ∧ DevForm s a b c n

theorem dropLit_eq_some {p s r : Str} : dropLit p s = some r ↔ s = p ++ r := by
  induction p generalizing s with
  | nil => simp [dropLit]
  | cons c p ih =>
    cases s with
    | nil => simp [dropLit]
    | cons x s =>
      by_cases hx : x = c
      · subst hx; simp [dropLit, ih]
      · simp [dropLit, hx, Ne.symm hx]

theorem takeDigits_spec (s : Str) :
    s = (takeDigits s).1 ++ (takeDigits s).2 ∧
    (∀ c ∈ (takeDigits s).1, c.isDigit = true) ∧ headNotDigit (takeDigits s).2 := by
  induction s with
  | nil => simp [takeDigits, headNotDigit]
  | cons c l ih =>
    by_cases h : c.isDigit
    · simpa [takeDigits, h] using ih
    · simp only [Bool.not_eq_true] at h
      simp [takeDigits, h, headNotDigit]

theorem takeDigits_append {d r : Str} (hd : ∀ c ∈ d, c.isDigit = true)
    (hr : headNotDigit r) : takeDigits (d ++ r) = (d, r) := by
  induction d with
  | nil =>
    cases r with
    | nil => rfl
    | cons c cs =>
      simp only [headNotDigit] at hr
      simp [takeDigits, hr]
  | cons c d ih =>
    have hc : c.isDigit = true := hd c (by simp)
    have ih' := ih (fun x hx => hd x (by simp [hx]))
    simp [takeDigits, hc, ih']

theorem reqDigits_spec {s d r : Str} (h : reqDigits s = some (d, r)) :
    s = d ++ r ∧ DigitsNE d ∧ headNotDigit r := by
  unfold reqDigits at h
  by_cases h0 : (takeDigits s).1 = []
  · simp [h0] at h
  · simp only [h0, if_false, Option.some.injEq] at h
    obtain ⟨hs, hdig, hnd⟩ := takeDigits_spec s
    rw [h] at hs hdig hnd h0
    exact ⟨hs, ⟨h0, hdig⟩, hnd⟩

theorem reqDigits_of_decomp {d r : Str} (hd : DigitsNE d) (hr : headNotDigit r) :
    reqDigits (d ++ r) = some (d, r) := by
  unfold reqDigits
  rw [takeDigits_append hd.2 hr]
  simp [hd.1]

theorem digit_ne_dot {c : Char} (h : c.isDigit = true) : c ≠ '.' := by
  intro he; subst he; exact absurd h (by decide)

theorem digit_ne_dash {c : Char} (h : c.isDigit = true) : c ≠ '-' := by
  intro he; subst he; exact absurd h (by decide)

theorem headNotDigit_dot (r : Str) : headNotDigit ('.' :: r) := by
  simp [headNotDigit]

theorem headNotDigit_nil : headNotDigit [] := by
  simp [headNotDigit]

theorem headNotDigit_devLit (r : Str) : headNotDigit (devLit ++ r) := by
  simp [headNotDigit, devLit]

/-- Master correspondence: `parse_tag` returns exactly the values of the
reference grammar's full match. -/
theorem parse_tag_some_iff {s : Str} {a b c : Nat} {d : Option Nat} :
    parse_tag s = some (a, b, c, d) ↔ GrammarFull s a b c d := by
  constructor
  · intro h
    unfold parse_tag at h
    cases h1 : reqDigits s with
    | none => rw [h1] at h; simp [Option.bind] at h
    | some p1 =>
      obtain ⟨d1, r1⟩ := p1
      rw [h1] at h
      simp only [Option.bind] at h
      obtain ⟨hs1, hne1, -⟩ := reqDigits_spec h1
      cases h2 : dropLit ['.'] r1 with
      | none => rw [h2] at h; simp [Option.bind] at h
      | some s2 =>
        rw [h2] at h
        simp only [Option.bind] at h
        have hr1 : r1 = '.' :: s2 := by simpa using dropLit_eq_some.mp h2
        cases h3 : reqDigits s2 with
        | none => rw [h3] at h; simp [Option.bind] at h
        | some p2 =>
          obtain ⟨d2, r2⟩ := p2
          rw [h3] at h
          simp only [Option.bind] at h
          obtain ⟨hs2, hne2, -⟩ := reqDigits_spec h3
          cases h4 : dropLit ['.'] r2 with
          | none => rw [h4] at h; simp [Option.bind] at h
          | some s3 =>
            rw [h4] at h
            simp only [Option.bind] at h
            have hr2 : r2 = '.' :: s3 := by simpa using dropLit_eq_some.mp h4
            cases h5 : reqDigits s3 with
            | none => rw [h5] at h; simp [Option.bind] at h
            | some p3 =>
              obtain ⟨d3, r3⟩ := p3
              rw [h5] at h
              simp only [Option.bind] at h
              obtain ⟨hs3, hne3, -⟩ := reqDigits_spec h5
              cases r3 with
              | nil =>
                simp only [Option.some.injEq, Prod.mk.injEq] at h
                obtain ⟨ha, hb, hc, hd⟩ := h
                left
                refine ⟨hd.symm, d1, d2, d3, hne1, hne2, hne3, ?_, ha.symm, hb.symm, hc.symm⟩
                rw [hs1, hr1, hs2, hr2, hs3]; simp
              | cons c3 r3' =>
                cases h6 : dropLit devLit (c3 :: r3') with
                | none => rw [h6] at h; simp [Option.bind] at h
                | some s4 =>
                  rw [h6] at h
                  simp only [Option.bind] at h
                  have hr3 : c3 :: r3' = devLit ++ s4 := dropLit_eq_some.mp h6
                  cases h7 : reqDigits s4 with
                  | none => rw [h7] at h; simp [Option.bind] at h
                  | some p4 =>
                    obtain ⟨d4, r5⟩ := p4
                    rw [h7] at h
                    obtain ⟨hs4, hne4, -⟩ := reqDigits_spec h7
                    cases r5 with
                    | nil =>
                      simp only [Option.some.injEq, Prod.mk.injEq] at h
                      obtain ⟨ha, hb, hc, hd⟩ := h
                      right
                      refine ⟨digitsToNat d4, hd.symm, d1, d2, d3, d4,
                        hne1, hne2, hne3, hne4, ?_, ha.symm, hb.symm, hc.symm, rfl⟩
                      rw [hs1, hr1, hs2, hr2, hs3, hr3, hs4]; simp
                    | cons c5 r5' => simp at h
  · intro h
    rcases h with ⟨hd, d1, d2, d3, hne1, hne2, hne3, hs, ha, hb, hc⟩ |
      ⟨n, hd, d1, d2, d3, d4, hne1, hne2, hne3, hne4, hs, ha, hb, hc, hn⟩
    · subst hs hd ha hb hc
      unfold parse_tag
      rw [show d1 ++ '.' :: d2 ++ '.' :: d3 = d1 ++ ('.' :: (d2 ++ '.' :: d3)) by simp,
        reqDigits_of_decomp hne1 (headNotDigit_dot _)]
      simp only [Option.bind]
      rw [show dropLit ['.'] ('.' :: (d2 ++ '.' :: d3)) = some (d2 ++ '.' :: d3) from
        dropLit_eq_some.mpr rfl]
      simp only [Option.bind]
      rw [show d2 ++ '.' :: d3 = d2 ++ ('.' :: d3) from rfl,
        reqDigits_of_decomp hne2 (headNotDigit_dot _)]
      simp only [Option.bind]
      rw [show dropLit ['.'] ('.' :: d3) = some d3 from dropLit_eq_some.mpr rfl]
      simp only [Option.bind]
      rw [show d3 = d3 ++ [] by simp, reqDigits_of_decomp hne3 headNotDigit_nil]
      simp
    · subst hs hd ha hb hc hn
      unfold parse_tag
      rw [show d1 ++ '.' :: d2 ++ '.' :: d3 ++ devLit ++ d4 =
        d1 ++ ('.' :: (d2 ++ '.' :: (d3 ++ (devLit ++ d4)))) by simp,
        reqDigits_of_decomp hne1 (headNotDigit_dot _)]
      simp only [Option.bind]
      rw [show dropLit ['.'] ('.' :: (d2 ++ '.' :: (d3 ++ (devLit ++ d4)))) =
        some (d2 ++ '.' :: (d3 ++ (devLit ++ d4))) from dropLit_eq_some.mpr rfl]
      simp only [Option.bind]
      rw [show d2 ++ '.' :: (d3 ++ (devLit ++ d4)) = d2 ++ ('.' :: (d3 ++ (devLit ++ d4)))
        from rfl, reqDigits_of_decomp hne2 (headNotDigit_dot _)]
      simp only [Option.bind]
      rw [show dropLit ['.'] ('.' :: (d3 ++ (devLit ++ d4))) = some (d3 ++ (devLit ++ d4))
        from dropLit_eq_some.mpr rfl]
      simp only [Option.bind]
      rw [reqDigits_of_decomp hne3 (headNotDigit_devLit _)]
      simp only [Option.bind]
      obtain ⟨c4, d4', h4⟩ : ∃ c4 d4', devLit ++ d4 = c4 :: d4' := ⟨'-', _, rfl⟩
      rw [h4]
      simp only [Option.bind]
      rw [← h4]
      rw [show dropLit devLit (devLit ++ d4) = some d4 from dropLit_eq_some.mpr rfl]
      simp only [Option.bind]
      rw [show d4 = d4 ++ [] by simp, reqDigits_of_decomp hne4 headNotDigit_nil]
      simp

/-- `any_version_re` of `resolve_dev_version.py`: `^[0-9]+\.[0-9]+\.[0-9]+.*$`
(the trailing `.*` makes anything after the third digit run acceptable). -/
def isVersionLike (s : Str) : Bool :=
  ((reqDigits s).bind fun p1 =>
   (dropLit ['.'] p1.2).bind fun s2 =>
   (reqDigits s2).bind fun p2 =>
   (dropLit ['.'] p2.2).bind fun s3 =>
   (reqDigits s3).bind fun _ => some ()).isSome

/-- `official_re` of `resolve_dev_version.py`: `^[0-9]+\.[0-9]+\.[0-9]+$`. -/
def isOfficialTag (s : Str) : Bool :=
  ((reqDigits s).bind fun p1 =>
   (dropLit ['.'] p1.2).bind fun s2 =>
   (reqDigits s2).bind fun p2 =>
   (dropLit ['.'] p2.2).bind fun s3 =>
   (reqDigits s3).bind fun p3 =>
   match p3.2 with
   | [] => some ()
   | _ :: _ => none).isSome

/-- `dev_re` of `resolve_dev_version.py`:
`^([0-9]+\.[0-9]+\.[0-9]+)-dev\.([0-9]+)$`, returning group 1 verbatim and
group 2 as an integer. -/
def devMatch (s : Str) : Option (Str × Nat) :=
  (reqDigits s).bind fun p1 =>
  (dropLit ['.'] p1.2).bind fun s2 =>
  (reqDigits s2).bind fun p2 =>
  (dropLit ['.'] p2.2).bind fun s3 =>
  (reqDigits s3).bind fun p3 =>
  (dropLit devLit p3.2).bind fun s4 =>
  (reqDigits s4).bind fun p4 =>
  match p4.2 with
  | [] => some (p1.1 ++ '.' :: p2.1 ++ '.' :: p3.1, digitsToNat p4.1)
  | _ :: _ => none

/-- The spec's shared tag grammar `^\d+\.\d+\.\d+(-dev\.\d+)?$` as a decider
(the domain of `parse_tag`). -/
def sharedTagB (s : Str) : Bool := (parse_tag s).isSome

/-- Version-like prefix form: the language of `^[0-9]+\.[0-9]+\.[0-9]+.*$`. -/
def VersionPre (s : Str) : Prop :=
  ∃ d1 d2 d3 rest, DigitsNE d1 ∧ DigitsNE d2 ∧ DigitsNE d3 ∧
    s = d1 ++ '.' :: d2 ++ '.' :: (d3 ++ rest)

theorem reqDigits_isSome_of {d r : Str} (hd : DigitsNE d) :
    ∃ p, reqDigits (d ++ r) = some p := by
  obtain ⟨c, t, rfl⟩ : ∃ c t, d = c :: t := by
    cases d with
    | nil => exact absurd rfl hd.1
    | cons c t => exact ⟨c, t, rfl⟩
  have hc : c.isDigit = true := hd.2 c (by simp)
  refine ⟨((c :: t ++ r |> takeDigits).1, (c :: t ++ r |> takeDigits).2), ?_⟩
  unfold reqDigits
  simp [takeDigits, hc]

theorem isVersionLike_iff {s : Str} : isVersionLike s = true ↔ VersionPre s := by
  constructor
  · intro h
    unfold isVersionLike at h
    cases h1 : reqDigits s with
    | none => rw [h1] at h; simp [Option.bind] at h
    | some p1 =>
      obtain ⟨d1, r1⟩ := p1
      rw [h1] at h
      simp only [Option.bind] at h
      obtain ⟨hs1, hne1, -⟩ := reqDigits_spec h1
      cases h2 : dropLit ['.'] r1 with
      | none => rw [h2] at h; simp [Option.bind] at h
      | some s2 =>
        rw [h2] at h
        simp only [Option.bind] at h
        have hr1 : r1 = '.' :: s2 := by simpa using dropLit_eq_some.mp h2
        cases h3 : reqDigits s2 with
        | none => rw [h3] at h; simp [Option.bind] at h
        | some p2 =>
          obtain ⟨d2, r2⟩ := p2
          rw [h3] at h
          simp only [Option.bind] at h
          obtain ⟨hs2, hne2, -⟩ := reqDigits_spec h3
          cases h4 : dropLit ['.'] r2 with
          | none => rw [h4] at h; simp [Option.bind] at h
          | some s3 =>
            rw [h4] at h
            simp only [Option.bind] at h
            have hr2 : r2 = '.' :: s3 := by simpa using dropLit_eq_some.mp h4
            cases h5 : reqDigits s3 with
            | none => rw [h5] at h; simp [Option.bind] at h
            | some p3 =>
              obtain ⟨d3, r3⟩ := p3
              obtain ⟨hs3, hne3, -⟩ := reqDigits_spec h5
              refine ⟨d1, d2, d3, r3, hne1, hne2, hne3, ?_⟩
              rw [hs1, hr1, hs2, hr2, hs3]; simp
  · rintro ⟨d1, d2, d3, rest, hne1, hne2, hne3, rfl⟩
    unfold isVersionLike
    rw [show d1 ++ '.' :: d2 ++ '.' :: (d3 ++ rest) =
      d1 ++ ('.' :: (d2 ++ '.' :: (d3 ++ rest))) by simp,
      reqDigits_of_decomp hne1 (headNotDigit_dot _)]
    simp only [Option.bind]
    rw [show dropLit ['.'] ('.' :: (d2 ++ '.' :: (d3 ++ rest))) =
      some (d2 ++ '.' :: (d3 ++ rest)) from dropLit_eq_some.mpr rfl]
    simp only [Option.bind]
    rw [show d2 ++ '.' :: (d3 ++ rest) = d2 ++ ('.' :: (d3 ++ rest)) from rfl,
      reqDigits_of_decomp hne2 (headNotDigit_dot _)]
    simp only [Option.bind]
    rw [show dropLit ['.'] ('.' :: (d3 ++ rest)) = some (d3 ++ rest) from
      dropLit_eq_some.mpr rfl]
    simp only [Option.bind]
    obtain ⟨p, hp⟩ := reqDigits_isSome_of (r := rest) hne3
    rw [hp]
    rfl

theorem isOfficialTag_iff {s : Str} : isOfficialTag s = true ↔ ∃ a b c, OffForm s a b c := by
  constructor
  · intro h
    unfold isOfficialTag at h
    cases h1 : reqDigits s with
    | none => rw [h1] at h; simp [Option.bind] at h
    | some p1 =>
      obtain ⟨d1, r1⟩ := p1
      rw [h1] at h
      simp only [Option.bind] at h
      obtain ⟨hs1, hne1, -⟩ := reqDigits_spec h1
      cases h2 : dropLit ['.'] r1 with
      | none => rw [h2] at h; simp [Option.bind] at h
      | some s2 =>
        rw [h2] at h
        simp only [Option.bind] at h
        have hr1 : r1 = '.' :: s2 := by simpa using dropLit_eq_some.mp h2
        cases h3 : reqDigits s2 with
        | none => rw [h3] at h; simp [Option.bind] at h
        | some p2 =>
          obtain ⟨d2, r2⟩ := p2
          rw [h3] at h
          simp only [Option.bind] at h
          obtain ⟨hs2, hne2, -⟩ := reqDigits_spec h3
          cases h4 : dropLit ['.'] r2 with
          | none => rw [h4] at h; simp [Option.bind] at h
          | some s3 =>
            rw [h4] at h
            simp only [Option.bind] at h
            have hr2 : r2 = '.' :: s3 := by simpa using dropLit_eq_some.mp h4
            cases h5 : reqDigits s3 with
            | none => rw [h5] at h; simp [Option.bind] at h
            | some p3 =>
              obtain ⟨d3, r3⟩ := p3
              rw [h5] at h
              simp only [Option.bind] at h
              obtain ⟨hs3, hne3, -⟩ := reqDigits_spec h5
              cases r3 with
              | nil =>
                refine ⟨digitsToNat d1, digitsToNat d2, digitsToNat d3,
                  d1, d2, d3, hne1, hne2, hne3, ?_, rfl, rfl, rfl⟩
                rw [hs1, hr1, hs2, hr2, hs3]; simp
              | cons c3 r3' => simp at h
  · rintro ⟨a, b, c, d1, d2, d3, hne1, hne2, hne3, rfl, -, -, -⟩
    unfold isOfficialTag
    rw [show d1 ++ '.' :: d2 ++ '.' :: d3 = d1 ++ ('.' :: (d2 ++ '.' :: d3)) by simp,
      reqDigits_of_decomp hne1 (headNotDigit_dot _)]
    simp only [Option.bind]
    rw [show dropLit ['.'] ('.' :: (d2 ++ '.' :: d3)) = some (d2 ++ '.' :: d3) from
      dropLit_eq_some.mpr rfl]
    simp only [Option.bind]
    rw [show d2 ++ '.' :: d3 = d2 ++ ('.' :: d3) from rfl,
      reqDigits_of_decomp hne2 (headNotDigit_dot _)]
    simp only [Option.bind]
    rw [show dropLit ['.'] ('.' :: d3) = some d3 from dropLit_eq_some.mpr rfl]
    simp only [Option.bind]
    rw [show d3 = d3 ++ [] by simp, reqDigits_of_decomp hne3 headNotDigit_nil]
    rfl

theorem devMatch_some_spec {s bs : Str} {n : Nat} (h : devMatch s = some (bs, n)) :
    ∃ d1 d2 d3 d4, DigitsNE d1 ∧ DigitsNE d2 ∧ DigitsNE d3 ∧ DigitsNE d4 ∧
      s = d1 ++ '.' :: d2 ++ '.' :: d3 ++ devLit ++ d4 ∧
      bs = d1 ++ '.' :: d2 ++ '.' :: d3 ∧ n = digitsToNat d4 := by
  unfold devMatch at h
  cases h1 : reqDigits s with
  | none => rw [h1] at h; simp [Option.bind] at h
  | some p1 =>
    obtain ⟨d1, r1⟩ := p1
    rw [h1] at h
    simp only [Option.bind] at h
    obtain ⟨hs1, hne1, -⟩ := reqDigits_spec h1
    cases h2 : dropLit ['.'] r1 with
    | none => rw [h2] at h; simp [Option.bind] at h
    | some s2 =>
      rw [h2] at h
      simp only [Option.bind] at h
      have hr1 : r1 = '.' :: s2 := by simpa using dropLit_eq_some.mp h2
      cases h3 : reqDigits s2 with
      | none => rw [h3] at h; simp [Option.bind] at h
      | some p2 =>
        obtain ⟨d2, r2⟩ := p2
        rw [h3] at h
        simp only [Option.bind] at h
        obtain ⟨hs2, hne2, -⟩ := reqDigits_spec h3
        cases h4 : dropLit ['.'] r2 with
        | none => rw [h4] at h; simp [Option.bind] at h
        | some s3 =>
          rw [h4] at h
          simp only [Option.bind] at h
          have hr2 : r2 = '.' :: s3 := by simpa using dropLit_eq_some.mp h4
          cases h5 : reqDigits s3 with
          | none => rw [h5] at h; simp [Option.bind] at h
          | some p3 =>
            obtain ⟨d3, r3⟩ := p3
            rw [h5] at h
            simp only [Option.bind] at h
            obtain ⟨hs3, hne3, -⟩ := reqDigits_spec h5
            cases h6 : dropLit devLit r3 with
            | none => rw [h6] at h; simp [Option.bind] at h
            | some s4 =>
              rw [h6] at h
              simp only [Option.bind] at h
              have hr3 : r3 = devLit ++ s4 := dropLit_eq_some.mp h6
              cases h7 : reqDigits s4 with
              | none => rw [h7] at h; simp [Option.bind] at h
              | some p4 =>
                obtain ⟨d4, r5⟩ := p4
                rw [h7] at h
                obtain ⟨hs4, hne4, -⟩ := reqDigits_spec h7
                cases r5 with
                | nil =>
                  simp only [Option.some.injEq, Prod.mk.injEq] at h
                  obtain ⟨hbs, hn⟩ := h
                  refine ⟨d1, d2, d3, d4, hne1, hne2, hne3, hne4, ?_, hbs.symm, hn.symm⟩
                  rw [hs1, hr1, hs2, hr2, hs3, hr3, hs4]; simp
                | cons c5 r5' => simp at h

theorem devMatch_of_decomp {d1 d2 d3 d4 : Str} (hne1 : DigitsNE d1)
    (hne2 : DigitsNE d2) (hne3 : DigitsNE d3) (hne4 : DigitsNE d4) :
    devMatch (d1 ++ '.' :: d2 ++ '.' :: d3 ++ devLit ++ d4) =
      some (d1 ++ '.' :: d2 ++ '.' :: d3, digitsToNat d4) := by
  unfold devMatch
  rw [show d1 ++ '.' :: d2 ++ '.' :: d3 ++ devLit ++ d4 =
    d1 ++ ('.' :: (d2 ++ '.' :: (d3 ++ (devLit ++ d4)))) by simp,
    reqDigits_of_decomp hne1 (headNotDigit_dot _)]
  simp only [Option.bind]
  rw [show dropLit ['.'] ('.' :: (d2 ++ '.' :: (d3 ++ (devLit ++ d4)))) =
    some (d2 ++ '.' :: (d3 ++ (devLit ++ d4))) from dropLit_eq_some.mpr rfl]
  simp only [Option.bind]
  rw [show d2 ++ '.' :: (d3 ++ (devLit ++ d4)) = d2 ++ ('.' :: (d3 ++ (devLit ++ d4)))
    from rfl, reqDigits_of_decomp hne2 (headNotDigit_dot _)]
  simp only [Option.bind]
  rw [show dropLit ['.'] ('.' :: (d3 ++ (devLit ++ d4))) = some (d3 ++ (devLit ++ d4))
    from dropLit_eq_some.mpr rfl]
  simp only [Option.bind]
  rw [reqDigits_of_decomp hne3 (headNotDigit_devLit _)]
  simp only [Option.bind]
  rw [show dropLit devLit (devLit ++ d4) = some d4 from dropLit_eq_some.mpr rfl]
  simp only [Option.bind]
  rw [show d4 = d4 ++ [] by simp, reqDigits_of_decomp hne4 headNotDigit_nil]
  simp

theorem devMatch_eq_none_of_off {s : Str} {a b c : Nat} (h : OffForm s a b c) :
    devMatch s = none := by
  cases hd : devMatch s with
  | none => rfl
  | some p =>
    obtain ⟨bs, n⟩ := p
    obtain ⟨d1, d2, d3, d4, hne1, hne2, hne3, hne4, hs, -, hn⟩ := devMatch_some_spec hd
    have h1 : parse_tag s = some (a, b, c, none) :=
      parse_tag_some_iff.mpr (Or.inl ⟨rfl, h⟩)
    have h2 : parse_tag s = some (digitsToNat d1, digitsToNat d2, digitsToNat d3,
        some (digitsToNat d4)) :=
      parse_tag_some_iff.mpr (Or.inr ⟨digitsToNat d4, rfl,
        d1, d2, d3, d4, hne1, hne2, hne3, hne4, hs, rfl, rfl, rfl, rfl⟩)
    rw [h1] at h2
    simp at h2

/-! ## Pruner data model (`prune_old_dev_tags.py`, `main`) -/

/-- A VersionKey `(major, minor, patch)`. -/
abbrev Key := Nat × Nat × Nat

/-- Python's tuple order on `(major, minor, patch)`: numeric comparison of each
component in turn (the order `sorted` uses on the set of keys). -/
def keyLe (x y : Key) : Prop :=
  x.1 < y.1 ∨ (x.1 = y.1 ∧ (x.2.1 < y.2.1 ∨ (x.2.1 = y.2.1 ∧ x.2.2 ≤ y.2.2)))

/-- Strict version of `keyLe`. -/
def keyLt (x y : Key) : Prop := keyLe x y ∧ x ≠ y

instance : DecidableRel keyLe := fun x y => by unfold keyLe; exact inferInstance

instance : DecidableRel keyLt := fun x y => by unfold keyLt; exact inferInstance

instance : IsTotal Key keyLe := ⟨by
  rintro ⟨a1, a2, a3⟩ ⟨b1, b2, b3⟩
  simp only [keyLe]
  omega⟩

instance : IsTrans Key keyLe := ⟨by
  rintro ⟨a1, a2, a3⟩ ⟨b1, b2, b3⟩ ⟨c1, c2, c3⟩
  simp only [keyLe]
  omega⟩

theorem keyLe_antisymm {x y : Key} (h1 : keyLe x y) (h2 : keyLe y x) : x = y := by
  obtain ⟨a1, a2, a3⟩ := x
  obtain ⟨b1, b2, b3⟩ := y
  simp only [keyLe] at h1 h2
  simp only [Prod.mk.injEq]
  omega

theorem keyLe_total (x y : Key) : keyLe x y ∨ keyLe y x := IsTotal.total x y

/-- The VersionKey of `t` when `parse_tag` classifies it as an official tag. -/
def keyOfficial? (t : Str) : Option Key :=
  match parse_tag t with
  | some (a, b, c, none) => some (a, b, c)
  | _ => none

/-- The VersionKey of `t` when `parse_tag` classifies it as a dev tag. -/
def keyDev? (t : Str) : Option Key :=
  match parse_tag t with
  | some (a, b, c, some _) => some (a, b, c)
  | _ => none

/-- `official_versions` of the partition loop, as the list of keys of official
tags in input order (the set view is taken by `dedup` when sorting). -/
def officialKeys (tags : List Str) : List Key := tags.filterMap keyOfficial?

/-- `sorted_official = sorted(official_versions)`: the distinct official keys
in ascending numeric tuple order. -/
def sortedOfficial (tags : List Str) : List Key :=
  List.insertionSort keyLe (officialKeys tags).dedup

/-- `latest_two = sorted_official[-2:] if len(sorted_official) >= 2 else
sorted_official` (both cases coincide with dropping all but the last two). -/
def latestTwo (tags : List Str) : List Key :=
  (sortedOfficial tags).drop ((sortedOfficial tags).length - 2)

/-- `dev_tags_by_version.setdefault(ver_key, []).append(tag)` on an insertion
ordered association list (Python dict iteration order). -/
def addDev (m : List (Key × List Str)) (k : Key) (t : Str) : List (Key × List Str) :=
  match m with
  | [] => [(k, [t])]
  | (k', l) :: rest => if k' = k then (k', l ++ [t]) :: rest else (k', l) :: addDev rest k t

/-- One iteration of the partition loop (only dev tags touch the dict). -/
def devStep (m : List (Key × List Str)) (t : Str) : List (Key × List Str) :=
  match keyDev? t with
  | some k => addDev m k t
  | none => m

/-- `dev_tags_by_version` after the partition loop. -/
def devTagsByVersion (tags : List Str) : List (Key × List Str) :=
  tags.foldl devStep []

/-- `tags_to_delete`: all dev tags of lineages outside `latest_two`, in dict
iteration order. -/
def tagsToDelete (tags : List Str) : List Str :=
  (((devTagsByVersion tags).filter fun p => !decide (p.1 ∈ latestTwo tags)).map
    Prod.snd).flatten

/-- Membership of a tag in some lineage's bucket of the dict. -/
def DictMem (m : List (Key × List Str)) (k : Key) (t : Str) : Prop :=
  ∃ l, (k, l) ∈ m ∧ t ∈ l

theorem dictMem_nil {k : Key} {t : Str} : ¬DictMem [] k t := by
  simp [DictMem]

theorem dictMem_cons {k0 : Key} {l0 : List Str} {rest : List (Key × List Str)}
    {k : Key} {t : Str} :
    DictMem ((k0, l0) :: rest) k t ↔ (k = k0 ∧ t ∈ l0) ∨ DictMem rest k t := by
  constructor
  · rintro ⟨l, hmem, ht⟩
    rcases List.mem_cons.mp hmem with he | hm
    · obtain ⟨hk, hl⟩ := Prod.mk.injEq .. ▸ he
      exact Or.inl ⟨hk, hl ▸ ht⟩
    · exact Or.inr ⟨l, hm, ht⟩
  · rintro (⟨rfl, ht⟩ | ⟨l, hm, ht⟩)
    · exact ⟨l0, List.mem_cons_self _ _, ht⟩
    · exact ⟨l, List.mem_cons_of_mem _ hm, ht⟩

theorem dictMem_addDev {m : List (Key × List Str)} {k' k : Key} {t' t : Str} :
    DictMem (addDev m k' t') k t ↔ DictMem m k t ∨ (k = k' ∧ t = t') := by
  induction m with
  | nil =>
    unfold addDev
    rw [dictMem_cons]
    simp [DictMem]
  | cons pr rest ih =>
    obtain ⟨k0, l0⟩ := pr
    by_cases h0 : k0 = k'
    · subst h0
      unfold addDev
      rw [if_pos rfl, dictMem_cons, dictMem_cons]
      simp only [List.mem_append, List.mem_singleton]
      constructor
      · rintro (⟨rfl, ht | rfl⟩ | hm)
        · exact Or.inl (Or.inl ⟨rfl, ht⟩)
        · exact Or.inr ⟨rfl, rfl⟩
        · exact Or.inl (Or.inr hm)
      · rintro ((⟨rfl, ht⟩ | hm) | ⟨rfl, rfl⟩)
        · exact Or.inl ⟨rfl, Or.inl ht⟩
        · exact Or.inr hm
        · exact Or.inl ⟨rfl, Or.inr rfl⟩
    · unfold addDev
      rw [if_neg h0, dictMem_cons, dictMem_cons, ih]
      tauto

theorem dictMem_foldl {ts : List Str} {m0 : List (Key × List Str)} {k : Key} {t : Str} :
    DictMem (ts.foldl devStep m0) k t ↔
      DictMem m0 k t ∨ (t ∈ ts ∧ keyDev? t = some k) := by
  induction ts generalizing m0 with
  | nil => simp
  | cons t0 ts ih =>
    rw [List.foldl_cons, ih]
    cases hk0 : keyDev? t0 with
    | none =>
      have hstep : devStep m0 t0 = m0 := by unfold devStep; rw [hk0]
      rw [hstep]
      simp only [List.mem_cons]
      constructor
      · rintro (hm | ⟨hts, hkt⟩)
        · exact Or.inl hm
        · exact Or.inr ⟨Or.inr hts, hkt⟩
      · rintro (hm | ⟨rfl | hts, hkt⟩)
        · exact Or.inl hm
        · rw [hk0] at hkt; cases hkt
        · exact Or.inr ⟨hts, hkt⟩
    | some kd =>
      have hstep : devStep m0 t0 = addDev m0 kd t0 := by unfold devStep; rw [hk0]
      rw [hstep, dictMem_addDev]
      simp only [List.mem_cons]
      constructor
      · rintro ((hm | ⟨rfl, rfl⟩) | ⟨hts, hkt⟩)
        · exact Or.inl hm
        · exact Or.inr ⟨Or.inl rfl, hk0⟩
        · exact Or.inr ⟨Or.inr hts, hkt⟩
      · rintro (hm | ⟨rfl | hts, hkt⟩)
        · exact Or.inl (Or.inl hm)
        · rw [hk0] at hkt
          injection hkt with hkt'
          exact Or.inl (Or.inr ⟨hkt'.symm, rfl⟩)
        · exact Or.inr ⟨hts, hkt⟩

theorem mem_tagsToDelete {tags : List Str} {t : Str} :
    t ∈ tagsToDelete tags ↔
      ∃ k, keyDev? t = some k ∧ t ∈ tags ∧ k ∉ latestTwo tags := by
  unfold tagsToDelete
  rw [List.mem_flatten]
  constructor
  · rintro ⟨l, hl, ht⟩
    rw [List.mem_map] at hl
    obtain ⟨⟨k, l'⟩, hmemf, rfl⟩ := hl
    rw [List.mem_filter] at hmemf
    obtain ⟨hmem, hdec⟩ := hmemf
    have hdict : DictMem (devTagsByVersion tags) k t := ⟨l', hmem, ht⟩
    rw [devTagsByVersion, dictMem_foldl] at hdict
    rcases hdict with hnil | ⟨hts, hkt⟩
    · exact absurd hnil dictMem_nil
    · refine ⟨k, hkt, hts, ?_⟩
      simpa using hdec
  · rintro ⟨k, hk, htags, hnot⟩
    have hdict : DictMem (devTagsByVersion tags) k t := by
      rw [devTagsByVersion, dictMem_foldl]
      exact Or.inr ⟨htags, hk⟩
    obtain ⟨l, hmem, ht⟩ := hdict
    exact ⟨l, List.mem_map.mpr ⟨(k, l),
      List.mem_filter.mpr ⟨hmem, by simpa using hnot⟩, rfl⟩, ht⟩

theorem sortedOfficial_sorted (tags : List Str) :
    List.Sorted keyLe (sortedOfficial tags) :=
  List.sorted_insertionSort keyLe _

theorem sortedOfficial_nodup (tags : List Str) : (sortedOfficial tags).Nodup :=
  ((List.perm_insertionSort keyLe _).nodup_iff).mpr (List.nodup_dedup _)

theorem mem_sortedOfficial {tags : List Str} {k : Key} :
    k ∈ sortedOfficial tags ↔ k ∈ officialKeys tags := by
  rw [sortedOfficial, (List.perm_insertionSort keyLe _).mem_iff, List.mem_dedup]

/-- On a `keyLe`-sorted duplicate-free list, being among the last two elements
is the same as having at most one strictly greater element. -/
theorem mem_drop_sub_two_iff {s : List Key} (hs : List.Sorted keyLe s)
    (hn : s.Nodup) {k : Key} :
    k ∈ s.drop (s.length - 2) ↔
      k ∈ s ∧ (s.filter fun j => decide (keyLt k j)).length < 2 := by
  constructor
  · intro hk
    have hks : k ∈ s := List.mem_of_mem_drop hk
    obtain ⟨pre, post, rfl⟩ := List.append_of_mem hks
    obtain ⟨hpre, hkpost, hcrossLe⟩ := List.pairwise_append.mp hs
    obtain ⟨-, hnkpost, hcrossNe⟩ := List.pairwise_append.mp hn
    have hknotpre : k ∉ pre := fun hkp =>
      absurd rfl (hcrossNe k hkp k (List.mem_cons_self _ _))
    have hknotpost : k ∉ post := fun hkp =>
      absurd rfl ((List.pairwise_cons.mp hnkpost).1 k hkp)
    have hfil : ((pre ++ k :: post).filter fun j => decide (keyLt k j)) = post := by
      rw [List.filter_append]
      have h1 : (pre.filter fun j => decide (keyLt k j)) = [] := by
        rw [List.filter_eq_nil_iff]
        intro a ha
        simp only [decide_eq_true_eq]
        rintro ⟨hle, hne⟩
        exact hne (keyLe_antisymm hle (hcrossLe a ha k (List.mem_cons_self _ _)))
      have h2 : ((k :: post).filter fun j => decide (keyLt k j)) = post := by
        rw [List.filter_cons]
        have hkk : ¬keyLt k k := fun h => h.2 rfl
        simp only [decide_eq_true_eq, hkk, if_false]
        rw [List.filter_eq_self]
        intro a ha
        simp only [decide_eq_true_eq]
        exact ⟨(List.pairwise_cons.mp hkpost).1 a ha,
          fun he => hknotpost (he ▸ ha)⟩
      rw [h1, h2]
      rfl
    refine ⟨hks, ?_⟩
    rw [hfil]
    rw [List.drop_append_eq_append_drop] at hk
    rcases List.mem_append.mp hk with hleft | hright
    · exact absurd (List.mem_of_mem_drop hleft) hknotpre
    · by_contra hge
      push_neg at hge
      set n := (pre ++ k :: post).length with hn2
      have hlen : n = pre.length + post.length + 1 := by
        simp only [hn2, List.length_append, List.length_cons]
        omega
      obtain ⟨m', hm'⟩ : ∃ m', (n - 2) - pre.length = m' + 1 := by
        refine ⟨(n - 2) - pre.length - 1, ?_⟩
        omega
      rw [hm'] at hright
      rw [List.drop_succ_cons] at hright
      exact hknotpost (List.mem_of_mem_drop hright)
  · rintro ⟨hks, hcount⟩
    obtain ⟨pre, post, rfl⟩ := List.append_of_mem hks
    obtain ⟨hpre, hkpost, hcrossLe⟩ := List.pairwise_append.mp hs
    obtain ⟨-, hnkpost, hcrossNe⟩ := List.pairwise_append.mp hn
    have hknotpost : k ∉ post := fun hkp =>
      absurd rfl ((List.pairwise_cons.mp hnkpost).1 k hkp)
    have hfil : ((pre ++ k :: post).filter fun j => decide (keyLt k j)) = post := by
      rw [List.filter_append]
      have h1 : (pre.filter fun j => decide (keyLt k j)) = [] := by
        rw [List.filter_eq_nil_iff]
        intro a ha
        simp only [decide_eq_true_eq]
        rintro ⟨hle, hne⟩
        exact hne (keyLe_antisymm hle (hcrossLe a ha k (List.mem_cons_self _ _)))
      have h2 : ((k :: post).filter fun j => decide (keyLt k j)) = post := by
        rw [List.filter_cons]
        have hkk : ¬keyLt k k := fun h => h.2 rfl
        simp only [decide_eq_true_eq, hkk, if_false]
        rw [List.filter_eq_self]
        intro a ha
        simp only [decide_eq_true_eq]
        exact ⟨(List.pairwise_cons.mp hkpost).1 a ha,
          fun he => hknotpost (he ▸ ha)⟩
      rw [h1, h2]
      rfl
    rw [hfil] at hcount
    rw [List.drop_append_eq_append_drop]
    refine List.mem_append.mpr (Or.inr ?_)
    have hzero : ((pre ++ k :: post).length - 2) - pre.length = 0 := by
      have hlen : (pre ++ k :: post).length = pre.length + post.length + 1 := by
        simp only [List.length_append, List.length_cons]
        omega
      omega
    rw [hzero]
    exact List.mem_cons_self _ _

/-- Characterization of the protected lineages: a key is in `latest_two` iff it
is an official key with at most one strictly greater distinct official key. -/
theorem mem_latestTwo_iff {tags : List Str} {k : Key} :
    k ∈ latestTwo tags ↔ k ∈ officialKeys tags ∧
      (((officialKeys tags).dedup.filter fun j => decide (keyLt k j)).length < 2) := by
  have hperm : (sortedOfficial tags).Perm (officialKeys tags).dedup :=
    List.perm_insertionSort _ _
  have hcount : (((officialKeys tags).dedup.filter fun j =>
      decide (keyLt k j)).length) = (((sortedOfficial tags).filter fun j =>
      decide (keyLt k j)).length) := ((hperm.filter _).length_eq).symm
  rw [latestTwo, mem_drop_sub_two_iff (sortedOfficial_sorted tags)
    (sortedOfficial_nodup tags), mem_sortedOfficial, hcount]

theorem keyDev?_some_iff {t : Str} {k : Key} :
    keyDev? t = some k ↔ ∃ n, parse_tag t = some (k.1, k.2.1, k.2.2, some n) := by
  obtain ⟨k1, k2, k3⟩ := k
  cases h : parse_tag t with
  | none => unfold keyDev?; rw [h]; simp
  | some p =>
    obtain ⟨a, b, c, d⟩ := p
    unfold keyDev?
    rw [h]
    cases d with
    | none => simp
    | some n0 => simp

theorem keyOfficial?_some_iff {t : Str} {k : Key} :
    keyOfficial? t = some k ↔ parse_tag t = some (k.1, k.2.1, k.2.2, none) := by
  obtain ⟨k1, k2, k3⟩ := k
  cases h : parse_tag t with
  | none => unfold keyOfficial?; rw [h]; simp
  | some p =>
    obtain ⟨a, b, c, d⟩ := p
    unfold keyOfficial?
    rw [h]
    cases d with
    | none => simp
    | some n0 => simp

/-- C3: the Version Tag Parser equals the reference grammar
`^(\d+)\.(\d+)\.(\d+)(-dev\.(\d+))?$`: a string is accepted with values
`(major, minor, patch, dev)` exactly when it decomposes per the grammar with
those numeric groups, and every other string is rejected with `none`. -/
theorem c3_parser_equals_grammar (s : Str) :
    (∀ a b c d, parse_tag s = some (a, b, c, d) ↔ GrammarFull s a b c d) ∧
    (parse_tag s = none ↔ ∀ a b c d, ¬GrammarFull s a b c d) := by
  refine ⟨fun a b c d => parse_tag_some_iff, ?_, ?_⟩
  · intro h a b c d hg
    rw [parse_tag_some_iff.mpr hg] at h
    cases h
  · intro h
    cases hp : parse_tag s with
    | none => rfl
    | some p =>
      obtain ⟨a, b, c, d⟩ := p
      exact absurd (parse_tag_some_iff.mp hp) (h a b c d)

/-- C1: a tag is marked for deletion iff it is a dev tag whose VersionKey is
not protected; the protected keys are exactly the official keys with at most
one strictly greater distinct official key under numeric componentwise
comparison — the last two of the officials sorted ascending, or all of them
when fewer than two exist. -/
theorem c1_pruner_marking (tags : List Str) (t : Str) (ht : t ∈ tags) :
    t ∈ tagsToDelete tags ↔
      ∃ a b c n, parse_tag t = some (a, b, c, some n) ∧
        ¬((a, b, c) ∈ officialKeys tags ∧
          (((officialKeys tags).dedup.filter fun j =>
            decide (keyLt (a, b, c) j)).length < 2)) := by
  rw [mem_tagsToDelete]
  constructor
  · rintro ⟨k, hk, -, hnot⟩
    obtain ⟨k1, k2, k3⟩ := k
    obtain ⟨n, hn⟩ := keyDev?_some_iff.mp hk
    refine ⟨k1, k2, k3, n, hn, ?_⟩
    rw [← mem_latestTwo_iff]
    exact hnot
  · rintro ⟨a, b, c, n, hp, hnot⟩
    refine ⟨(a, b, c), keyDev?_some_iff.mpr ⟨n, hp⟩, ht, ?_⟩
    rw [mem_latestTwo_iff]
    exact hnot

theorem c1_pruner_marking_witness :
    lit "1.2.0-dev.5" ∈
      tagsToDelete [lit "1.9.0", lit "1.10.0", lit "1.2.0", lit "1.2.0-dev.5"] :=
  (c1_pruner_marking _ _ (by decide)).mpr ⟨1, 2, 0, 5, by decide, by decide⟩

/-! ## Pruner observable behaviour (reporting and deletion subprocesses) -/

/-- Decimal rendering of a number, as Python's `str(int)` for nonnegatives. -/
def natToDigits (n : Nat) : Str := (Nat.repr n).data

/-- The report line `  {v[0]}.{v[1]}.{v[2]}` for a version key. -/
def fmtKeyLine (k : Key) : Str :=
  lit "  " ++ natToDigits k.1 ++ '.' :: natToDigits k.2.1 ++ '.' :: natToDigits k.2.2

/-- Python's default string comparison: lexicographic by code point. -/
def strLe : Str → Str → Bool
  | [], _ => true
  | _ :: _, [] => false
  | a :: as, b :: bs => if a < b then true else if a = b then strLe as bs else false

/-- `strLe` as a relation, for sorting the report. -/
def strLeP (a b : Str) : Prop := strLe a b = true

instance : DecidableRel strLeP := fun a b => by unfold strLeP; exact inferInstance

/-- `sorted(tags_to_delete)` of the report (stable sort in string order). -/
def sortStr (l : List Str) : List Str := List.insertionSort strLeP l

/-- Python whitespace for `str.strip()`, over the ASCII range. -/
def pyIsSpace (c : Char) : Bool :=
  c == ' ' || c == '\t' || c == '\n' || c == '\r' || c == '\x0b' || c == '\x0c'

/-- `if t.strip()`: the tag line has some non-whitespace character. -/
def nonBlank (t : Str) : Bool := t.any fun c => !pyIsSpace c

/-- The two deletion subprocess calls: `git tag -d <t>` and
`git push --delete origin <t>`. -/
inductive GitCmd where
  | tagDelete (t : Str)
  | pushDelete (t : Str)
deriving DecidableEq

/-- Observable result of a pruner run: stdout print calls, issued git deletion
commands in order, and the process exit code. -/
structure PruneResult where
  output : List Str
  cmds : List GitCmd
  exit : Nat
deriving DecidableEq

/-- The deletion loop: for each tag print, delete locally, then remotely; a
non-zero subprocess exit aborts the whole run with that exit code (`run_git`
calls `sys.exit(result.returncode)`). Returns (prints, issued commands, exit). -/
def runDeletions (gitExit : GitCmd → Nat) : List Str → List Str × List GitCmd × Nat
  | [] => ([], [], 0)
  | t :: rest =>
    if gitExit (GitCmd.tagDelete t) ≠ 0 then
      ([lit "Deleting tag: " ++ t], [GitCmd.tagDelete t], gitExit (GitCmd.tagDelete t))
    else if gitExit (GitCmd.pushDelete t) ≠ 0 then
      ([lit "Deleting tag: " ++ t], [GitCmd.tagDelete t, GitCmd.pushDelete t],
        gitExit (GitCmd.pushDelete t))
    else
      ((lit "Deleting tag: " ++ t) :: (runDeletions gitExit rest).1,
        GitCmd.tagDelete t :: GitCmd.pushDelete t :: (runDeletions gitExit rest).2.1,
        (runDeletions gitExit rest).2.2)

/-- `main(dry_run)` of `prune_old_dev_tags.py`, given the tag listing's output
lines and the exit codes of the deletion subprocesses. -/
def pruneMain (gitExit : GitCmd → Nat) (dryRun : Bool) (lines : List Str) :
    PruneResult :=
  let tags := lines.filter nonBlank
  if tags = [] then { output := [lit "No tags found."], cmds := [], exit := 0 }
  else if officialKeys tags = [] then
    { output := [lit "No official release tags found (x.y.z). Nothing to do."],
      cmds := [], exit := 0 }
  else
    let reportHead := lit "Official releases found (sorted):" ::
      (sortedOfficial tags).map fmtKeyLine ++
      lit "\nKeeping dev tags ONLY for the following official releases:" ::
      (latestTwo tags).map fmtKeyLine
    if tagsToDelete tags = [] then
      { output := reportHead ++ [lit "\nNo dev tags need to be deleted."],
        cmds := [], exit := 0 }
    else
      let report := reportHead ++ lit "\nDev tags to delete:" ::
        (sortStr (tagsToDelete tags)).map (fun t => lit "  " ++ t)
      if dryRun then
        { output := report ++ [lit "\nDry-run mode: no tags have been deleted."],
          cmds := [], exit := 0 }
      else
        { output := report ++ (runDeletions gitExit (tagsToDelete tags)).1 ++
            (if (runDeletions gitExit (tagsToDelete tags)).2.2 = 0 then
              [lit "\nDone. Deleted dev tags outside the two latest official releases (local and origin)."]
            else []),
          cmds := (runDeletions gitExit (tagsToDelete tags)).2.1,
          exit := (runDeletions gitExit (tagsToDelete tags)).2.2 }

/-- The deletion commands the loop intends to issue, in order: local then
remote for each tag. -/
def planned : List Str → List GitCmd
  | [] => []
  | t :: rest => GitCmd.tagDelete t :: GitCmd.pushDelete t :: planned rest

/-- Reference behaviour of a fail-fast loop over commands: issue commands in
order up to and including the first failing one. -/
def cutFirstFail (gitExit : GitCmd → Nat) : List GitCmd → List GitCmd × Nat
  | [] => ([], 0)
  | c :: cs =>
    if gitExit c ≠ 0 then ([c], gitExit c)
    else (c :: (cutFirstFail gitExit cs).1, (cutFirstFail gitExit cs).2)

theorem runDeletions_eq_cut (gitExit : GitCmd → Nat) (ttd : List Str) :
    (runDeletions gitExit ttd).2.1 = (cutFirstFail gitExit (planned ttd)).1 ∧
    (runDeletions gitExit ttd).2.2 = (cutFirstFail gitExit (planned ttd)).2 := by
  induction ttd with
  | nil => exact ⟨rfl, rfl⟩
  | cons t rest ih =>
    unfold runDeletions planned cutFirstFail
    by_cases h1 : gitExit (GitCmd.tagDelete t) ≠ 0
    · rw [if_pos h1, if_pos h1]
      exact ⟨rfl, rfl⟩
    · rw [if_neg h1, if_neg h1]
      unfold cutFirstFail
      by_cases h2 : gitExit (GitCmd.pushDelete t) ≠ 0
      · rw [if_pos h2, if_pos h2]
        exact ⟨rfl, rfl⟩
      · rw [if_neg h2, if_neg h2]
        exact ⟨by rw [ih.1], by rw [ih.2]⟩

theorem cutFirstFail_all_ok {gitExit : GitCmd → Nat} {l : List GitCmd}
    (h : ∀ c ∈ l, gitExit c = 0) : cutFirstFail gitExit l = (l, 0) := by
  induction l with
  | nil => rfl
  | cons c cs ih =>
    have hc : gitExit c = 0 := h c (List.mem_cons_self _ _)
    unfold cutFirstFail
    rw [if_neg (by simp [hc]), ih fun x hx => h x (List.mem_cons_of_mem _ hx)]

theorem cutFirstFail_first_fail {gitExit : GitCmd → Nat} :
    ∀ {l : List GitCmd} {i : Nat} (hi : i < l.length),
      gitExit (l.get ⟨i, hi⟩) ≠ 0 →
      (∀ j (hj : j < l.length), j < i → gitExit (l.get ⟨j, hj⟩) = 0) →
      cutFirstFail gitExit l = (l.take (i + 1), gitExit (l.get ⟨i, hi⟩)) := by
  intro l
  induction l with
  | nil => intro i hi; cases hi
  | cons c cs ih =>
    intro i hi hfail hok
    cases i with
    | zero =>
      unfold cutFirstFail
      simp only [List.get] at hfail
      rw [if_pos hfail]
      rfl
    | succ i' =>
      have hc : gitExit c = 0 := hok 0 (by simp) (Nat.succ_pos _)
      unfold cutFirstFail
      have hi' : i' < cs.length := by
        simp only [List.length_cons] at hi
        omega
      have heq := ih hi' (by simpa using hfail)
        (fun j hj hji => hok (j + 1) (by simp only [List.length_cons]; omega)
          (by omega))
      rw [if_neg (by simp [hc]), heq]
      simp only [List.take_succ_cons]
      rfl
theorem pruneMain_delete_branch (gitExit : GitCmd → Nat) (lines : List Str)
    (hoff : officialKeys (lines.filter nonBlank) ≠ []) :
    (pruneMain gitExit false lines).cmds =
      (runDeletions gitExit (tagsToDelete (lines.filter nonBlank))).2.1 ∧
    (pruneMain gitExit false lines).exit =
      (runDeletions gitExit (tagsToDelete (lines.filter nonBlank))).2.2 := by
  have htags : lines.filter nonBlank ≠ [] := by
    intro h
    apply hoff
    rw [h]
    rfl
  by_cases httd : tagsToDelete (lines.filter nonBlank) = []
  · simp [pruneMain, htags, hoff, httd, runDeletions]
  · simp [pruneMain, htags, hoff, httd]

/-- C5: in a real (non-dry-run) pruner run, deletions are issued one tag at a
time, local then remote; if every deletion succeeds all planned commands are
issued and the run exits 0; at the first failing command the run stops with
that command's exit code, having issued exactly the planned prefix up to and
including it — no later deletion command is ever issued and nothing is rolled
back. -/
theorem c5_fail_fast (gitExit : GitCmd → Nat) (lines : List Str)
    (hoff : officialKeys (lines.filter nonBlank) ≠ []) :
    ((∀ c ∈ planned (tagsToDelete (lines.filter nonBlank)), gitExit c = 0) →
      (pruneMain gitExit false lines).cmds =
        planned (tagsToDelete (lines.filter nonBlank)) ∧
      (pruneMain gitExit false lines).exit = 0) ∧
    (∀ i (hi : i < (planned (tagsToDelete (lines.filter nonBlank))).length),
      gitExit ((planned (tagsToDelete (lines.filter nonBlank))).get ⟨i, hi⟩) ≠ 0 →
      (∀ j (hj : j < (planned (tagsToDelete (lines.filter nonBlank))).length),
        j < i →
        gitExit ((planned (tagsToDelete (lines.filter nonBlank))).get ⟨j, hj⟩) = 0) →
      (pruneMain gitExit false lines).cmds =
        (planned (tagsToDelete (lines.filter nonBlank))).take (i + 1) ∧
      (pruneMain gitExit false lines).exit =
        gitExit ((planned (tagsToDelete (lines.filter nonBlank))).get ⟨i, hi⟩)) := by
  obtain ⟨hcmds, hexit⟩ := pruneMain_delete_branch gitExit lines hoff
  obtain ⟨hrc, hre⟩ := runDeletions_eq_cut gitExit (tagsToDelete (lines.filter nonBlank))
  constructor
  · intro hall
    have hcut := cutFirstFail_all_ok hall
    exact ⟨by rw [hcmds, hrc, hcut], by rw [hexit, hre, hcut]⟩
  · intro i hi hfail hok
    have hcut := cutFirstFail_first_fail hi hfail fun j hj hji => hok j hj hji
    exact ⟨by rw [hcmds, hrc, hcut], by rw [hexit, hre, hcut]⟩

theorem c5_fail_fast_witness :
    (pruneMain (fun _ => 0) false [lit "1.0.0", lit "2.0.0", lit "0.1.0-dev.1"]).cmds =
      planned (tagsToDelete
        ([lit "1.0.0", lit "2.0.0", lit "0.1.0-dev.1"].filter nonBlank)) ∧
    (pruneMain (fun _ => 0) false [lit "1.0.0", lit "2.0.0", lit "0.1.0-dev.1"]).exit =
      0 :=
  (c5_fail_fast (fun _ => 0) _ (by decide)).1 fun _ _ => rfl

/-- C6: with dry-run active the pruner issues no deletion subprocess call,
exits 0, and its whole observable behaviour is independent of the deletion
subprocesses' exit codes. -/
theorem c6_dry_run_frame (gitExit gitExit' : GitCmd → Nat) (lines : List Str) :
    (pruneMain gitExit true lines).cmds = [] ∧
    (pruneMain gitExit true lines).exit = 0 ∧
    pruneMain gitExit true lines = pruneMain gitExit' true lines := by
  by_cases h1 : lines.filter nonBlank = []
  · simp [pruneMain, h1]
  · by_cases h2 : officialKeys (lines.filter nonBlank) = []
    · simp [pruneMain, h1, h2]
    · by_cases h3 : tagsToDelete (lines.filter nonBlank) = []
      · simp [pruneMain, h1, h2, h3]
      · simp [pruneMain, h1, h2, h3]

/-- C7 as stated is false on the empty tag list: it contains no official tag,
yet the pruner reports "No tags found." and not the nothing-to-do message. -/
theorem c7_counterexample :
    (pruneMain (fun _ => 0) false []).output = [lit "No tags found."] ∧
    lit "No official release tags found (x.y.z). Nothing to do." ∉
      (pruneMain (fun _ => 0) false []).output := by decide

/-- C7 amended: for every input tag list with at least one nonblank tag and no
official `MAJOR.MINOR.PATCH` tag, the pruner prints exactly the nothing-to-do
message, performs no deletions and exits 0. -/
theorem c7_no_officials (gitExit : GitCmd → Nat) (dryRun : Bool) (lines : List Str)
    (hne : lines.filter nonBlank ≠ [])
    (hnooff : ∀ t ∈ lines, keyOfficial? t = none) :
    pruneMain gitExit dryRun lines =
      { output := [lit "No official release tags found (x.y.z). Nothing to do."],
        cmds := [], exit := 0 } := by
  have hoff : officialKeys (lines.filter nonBlank) = [] := by
    rw [officialKeys, List.filterMap_eq_nil_iff]
    intro t htf
    exact hnooff t (List.mem_of_mem_filter htf)
  simp [pruneMain, hne, hoff]

theorem c7_no_officials_witness :
    pruneMain (fun _ => 0) false [lit "0.1.0-dev.1"] =
      { output := [lit "No official release tags found (x.y.z). Nothing to do."],
        cmds := [], exit := 0 } :=
  c7_no_officials (fun _ => 0) false _ (by decide) (by decide)

theorem mem_runDeletions_cmds {gitExit : GitCmd → Nat} :
    ∀ {ttd : List Str} {g : GitCmd}, g ∈ (runDeletions gitExit ttd).2.1 →
      ∃ t ∈ ttd, g = GitCmd.tagDelete t ∨ g = GitCmd.pushDelete t := by
  intro ttd
  induction ttd with
  | nil =>
    intro g hg
    simp [runDeletions] at hg
  | cons t rest ih =>
    intro g hg
    unfold runDeletions at hg
    by_cases h1 : gitExit (GitCmd.tagDelete t) ≠ 0
    · rw [if_pos h1] at hg
      simp only [List.mem_singleton] at hg
      exact ⟨t, List.mem_cons_self _ _, Or.inl hg⟩
    · rw [if_neg h1] at hg
      by_cases h2 : gitExit (GitCmd.pushDelete t) ≠ 0
      · rw [if_pos h2] at hg
        simp only [List.mem_cons, List.mem_singleton, List.not_mem_nil, or_false] at hg
        rcases hg with rfl | rfl
        · exact ⟨t, List.mem_cons_self _ _, Or.inl rfl⟩
        · exact ⟨t, List.mem_cons_self _ _, Or.inr rfl⟩
      · rw [if_neg h2] at hg
        rcases List.mem_cons.mp hg with rfl | hg'
        · exact ⟨t, List.mem_cons_self _ _, Or.inl rfl⟩
        · rcases List.mem_cons.mp hg' with rfl | hg''
          · exact ⟨t, List.mem_cons_self _ _, Or.inr rfl⟩
          · obtain ⟨t', ht', ho⟩ := ih hg''
            exact ⟨t', List.mem_cons_of_mem _ ht', ho⟩

theorem pruneMain_cmds_sub {gitExit : GitCmd → Nat} {dryRun : Bool}
    {lines : List Str} {g : GitCmd}
    (hg : g ∈ (pruneMain gitExit dryRun lines).cmds) :
    ∃ t ∈ tagsToDelete (lines.filter nonBlank),
      g = GitCmd.tagDelete t ∨ g = GitCmd.pushDelete t := by
  by_cases h1 : lines.filter nonBlank = []
  · simp [pruneMain, h1] at hg
  · by_cases h2 : officialKeys (lines.filter nonBlank) = []
    · simp [pruneMain, h1, h2] at hg
    · by_cases h3 : tagsToDelete (lines.filter nonBlank) = []
      · simp [pruneMain, h1, h2, h3] at hg
      · cases dryRun with
        | true => simp [pruneMain, h1, h2, h3] at hg
        | false =>
          have hc : (pruneMain gitExit false lines).cmds =
              (runDeletions gitExit (tagsToDelete (lines.filter nonBlank))).2.1 :=
            (pruneMain_delete_branch gitExit lines h2).1
          rw [hc] at hg
          exact mem_runDeletions_cmds hg

/-- C10: every tag the pruner marks for deletion is a dev tag matching
`^\d+\.\d+\.\d+-dev\.\d+$`, and every deletion command it ever issues (local
or remote) names such a marked dev tag — official and non-version tags are
never in the deletion set and never deleted. -/
theorem c10_only_dev_tags_deleted :
    (∀ (tags : List Str) (t : Str), t ∈ tagsToDelete tags →
      ∃ a b c n, DevForm t a b c n) ∧
    (∀ (gitExit : GitCmd → Nat) (dryRun : Bool) (lines : List Str) (g : GitCmd),
      g ∈ (pruneMain gitExit dryRun lines).cmds →
      ∃ t, (g = GitCmd.tagDelete t ∨ g = GitCmd.pushDelete t) ∧
        t ∈ tagsToDelete (lines.filter nonBlank) ∧ ∃ a b c n, DevForm t a b c n) := by
  have hdev : ∀ (tags : List Str) (t : Str), t ∈ tagsToDelete tags →
      ∃ a b c n, DevForm t a b c n := by
    intro tags t ht
    obtain ⟨k, hk, -, -⟩ := mem_tagsToDelete.mp ht
    obtain ⟨n, hn⟩ := keyDev?_some_iff.mp hk
    rcases parse_tag_some_iff.mp hn with ⟨hnone, -⟩ | ⟨n', -, hdevf⟩
    · cases hnone
    · exact ⟨k.1, k.2.1, k.2.2, n', hdevf⟩
  refine ⟨hdev, ?_⟩
  intro gitExit dryRun lines g hg
  obtain ⟨t, htd, ho⟩ := pruneMain_cmds_sub hg
  exact ⟨t, ho, htd, hdev _ t htd⟩

/-! ## Resolver (`resolve_dev_version.py`) -/

/-- Python `s.split('.')`: split on every dot, keeping empty components. -/
def splitDot : Str → List Str
  | [] => [[]]
  | c :: r =>
    if c = '.' then [] :: splitDot r
    else
      match splitDot r with
      | [] => [[c]]
      | x :: xs => (c :: x) :: xs

/-- Python `str.strip()` (default: strip surrounding whitespace). -/
def stripWs (s : Str) : Str :=
  ((s.dropWhile pyIsSpace).reverse.dropWhile pyIsSpace).reverse

/-- Digits with Python's single-underscore-between-digits rule, continuing an
accumulated value. -/
def digitsUSAux (acc : Nat) : Str → Option Nat
  | [] => some acc
  | c :: rest =>
    if c.isDigit then digitsUSAux (10 * acc + (c.toNat - '0'.toNat)) rest
    else if c = '_' then
      match rest with
      | [] => none
      | c2 :: rest2 =>
        if c2.isDigit then digitsUSAux (10 * acc + (c2.toNat - '0'.toNat)) rest2
        else none
    else none

/-- An unsigned decimal literal for Python `int()`: leading digit, then digits
with single underscores allowed between digits. -/
def digitsUS : Str → Option Nat
  | [] => none
  | c :: rest => if c.isDigit then digitsUSAux (c.toNat - '0'.toNat) rest else none

/-- Sign handling of Python `int()` after stripping whitespace. -/
def pyIntCore : Str → Option Int
  | [] => none
  | c :: r =>
    if c = '+' then (digitsUS r).map fun n => (n : Int)
    else if c = '-' then (digitsUS r).map fun n => -(n : Int)
    else (digitsUS (c :: r)).map fun n => (n : Int)

/-- Python `int(s)` on a string: `none` models the `ValueError` the script does
not catch.  (Non-ASCII decimal digits and exotic Unicode whitespace, which
Python would also accept, are outside the modelled character range.) -/
def pyInt (s : Str) : Option Int := pyIntCore (stripWs s)

/-- Python `str(i)` for an int. -/
def intToStr (i : Int) : Str :=
  if i < 0 then '-' :: natToDigits i.natAbs else natToDigits i.toNat

/-- Python `s.startswith(p)`. -/
def strStartsWith : Str → Str → Bool
  | _, [] => true
  | [], _ :: _ => false
  | x :: s', c :: p' => if x = c then strStartsWith s' p' else false

/-- Process outcome of the resolver script. -/
inductive ExitKind where
  | ok
  | err (code : Nat)
  | exn
deriving DecidableEq

/-- Observable behaviour of a resolver run: stdout print calls, lines appended
to the `GITHUB_ENV` file (empty when the variable is unset), and the outcome. -/
structure RunOut where
  stdout : List Str
  envLines : List Str
  exit : ExitKind
deriving DecidableEq

/-- The successful tail of the script: the latest-tag print, the computed-tag
print, the two stdout output variables, and the `GITHUB_ENV` lines. -/
def mkOut (latest lo next : Str) (fromDev : Bool) (hasEnv : Bool) : RunOut where
  stdout := [lit "Latest release tag: " ++ latest,
    (if fromDev then lit "Computed next dev tag (incrementing dev number): "
     else lit "Computed next dev tag: ") ++ next,
    lit "NEXT_DEV_TAG=" ++ next,
    lit "LATEST_RELEASE_TAG=" ++ lo]
  envLines :=
    if hasEnv then [lit "LATEST_RELEASE_TAG=" ++ lo, lit "NEXT_DEV_TAG=" ++ next]
    else []
  exit := ExitKind.ok

/-- Lines 51-66 of the script: print the latest tag, then compute the next dev
tag from it — incrementing the `-dev.N` suffix, or splitting on dots and
incrementing the patch.  An unparseable patch component or a short split is an
uncaught exception (`ExitKind.exn`). -/
def resolveNext (hasEnv : Bool) (latest lo : Str) : RunOut :=
  match devMatch latest with
  | some (base, n) => mkOut latest lo (base ++ devLit ++ natToDigits (n + 1)) true hasEnv
  | none =>
    match splitDot latest with
    | maj :: minr :: pat :: _ =>
      match pyInt pat with
      | some p =>
        mkOut latest lo (maj ++ '.' :: minr ++ '.' :: intToStr (p + 1) ++ lit "-dev.1")
          false hasEnv
      | none =>
        { stdout := [lit "Latest release tag: " ++ latest], envLines := [],
          exit := ExitKind.exn }
    | _ =>
      { stdout := [lit "Latest release tag: " ++ latest], envLines := [],
        exit := ExitKind.exn }

/-- The whole resolver script, given the tool-sorted tag list: filter to
version-like tags, fail without any; filter those to official tags, fail
without any; take the last official and last overall tags, collapse the
latter onto the former when it extends it as a string prefix, and compute the
next dev tag. -/
def resolve (hasEnv : Bool) (all_tags : List Str) : RunOut :=
  let vt := all_tags.filter isVersionLike
  if vt = [] then
    { stdout := [lit "Error: No version tags found in repository!"],
      envLines := [], exit := ExitKind.err 1 }
  else
    let ot := vt.filter isOfficialTag
    if ot = [] then
      { stdout := [lit "Error: Latest official release tag (X.Y.Z) not found!"],
        envLines := [], exit := ExitKind.err 1 }
    else
      let lo := ot.getLastD []
      let l0 := vt.getLastD []
      resolveNext hasEnv (if strStartsWith l0 lo then lo else l0) lo

theorem getLastD_mem {α : Type} : ∀ {l : List α}, l ≠ [] → ∀ d : α, l.getLastD d ∈ l
  | [], h, _ => absurd rfl h
  | [x], _, d => by simp [List.getLastD]
  | x :: y :: ys, _, d => by
    rw [show (x :: y :: ys).getLastD d = (y :: ys).getLastD x from rfl]
    exact List.mem_cons_of_mem _ (getLastD_mem (by simp) x)

theorem pyIsSpace_of_digit {c : Char} (h : c.isDigit = true) : pyIsSpace c = false := by
  have hs : c ≠ ' ' ∧ c ≠ '\t' ∧ c ≠ '\n' ∧ c ≠ '\r' ∧ c ≠ '\x0b' ∧ c ≠ '\x0c' := by
    refine ⟨?_, ?_, ?_, ?_, ?_, ?_⟩ <;> (rintro rfl; exact absurd h (by decide))
  obtain ⟨h1, h2, h3, h4, h5, h6⟩ := hs
  simp [pyIsSpace, h1, h2, h3, h4, h5, h6]

theorem dropWhile_eq_self_of {l : Str} (h : ∀ c ∈ l, pyIsSpace c = false) :
    l.dropWhile pyIsSpace = l := by
  cases l with
  | nil => rfl
  | cons c t => simp [List.dropWhile_cons, h c (by simp)]

theorem stripWs_of_digits {d : Str} (h : ∀ c ∈ d, c.isDigit = true) :
    stripWs d = d := by
  have hns : ∀ c ∈ d, pyIsSpace c = false := fun c hc => pyIsSpace_of_digit (h c hc)
  unfold stripWs
  rw [dropWhile_eq_self_of hns,
    dropWhile_eq_self_of fun c hc => hns c (List.mem_reverse.mp hc),
    List.reverse_reverse]

theorem digitsUSAux_digits :
    ∀ {l : Str} (acc : Nat), (∀ c ∈ l, c.isDigit = true) →
      digitsUSAux acc l =
        some (l.foldl (fun n c => 10 * n + (c.toNat - '0'.toNat)) acc) := by
  intro l
  induction l with
  | nil => intro acc _; rfl
  | cons c t ih =>
    intro acc h
    have hc := h c (by simp)
    unfold digitsUSAux
    rw [if_pos hc]
    exact ih _ fun x hx => h x (by simp [hx])

theorem digitsUS_digits {d : Str} (hne : d ≠ []) (h : ∀ c ∈ d, c.isDigit = true) :
    digitsUS d = some (digitsToNat d) := by
  cases d with
  | nil => exact absurd rfl hne
  | cons c t =>
    have hc := h c (by simp)
    show (if c.isDigit = true then digitsUSAux (c.toNat - '0'.toNat) t else none) =
      some (digitsToNat (c :: t))
    rw [if_pos hc, digitsUSAux_digits _ fun x hx => h x (by simp [hx])]
    unfold digitsToNat
    rw [List.foldl_cons]
    congr 2
    omega

theorem pyInt_digits {d : Str} (hne : d ≠ []) (h : ∀ c ∈ d, c.isDigit = true) :
    pyInt d = some ((digitsToNat d : Int)) := by
  unfold pyInt
  rw [stripWs_of_digits h]
  cases d with
  | nil => exact absurd rfl hne
  | cons c t =>
    have hc := h c (by simp)
    have hplus : c ≠ '+' := by rintro rfl; exact absurd hc (by decide)
    have hminus : c ≠ '-' := by rintro rfl; exact absurd hc (by decide)
    show (if c = '+' then (digitsUS t).map fun n => (n : Int)
      else if c = '-' then (digitsUS t).map fun n => -(n : Int)
      else (digitsUS (c :: t)).map fun n => (n : Int)) =
      some ((digitsToNat (c :: t) : Int))
    rw [if_neg hplus, if_neg hminus, digitsUS_digits hne h]
    rfl

theorem intToStr_natCast_succ (n : Nat) : intToStr ((n : Int) + 1) = natToDigits (n + 1) := by
  unfold intToStr
  rw [if_neg (by omega : ¬((n : Int) + 1 < 0)),
    show ((n : Int) + 1).toNat = n + 1 by omega]

theorem splitDot_no_dot {d : Str} (h : ∀ c ∈ d, c ≠ '.') : splitDot d = [d] := by
  induction d with
  | nil => rfl
  | cons c t ih =>
    unfold splitDot
    rw [if_neg (h c (by simp)), ih fun x hx => h x (by simp [hx])]

theorem splitDot_cons_of_ne {c : Char} {t : Str} (h : c ≠ '.') :
    splitDot (c :: t) =
      match splitDot t with
      | [] => [[c]]
      | x :: xs => (c :: x) :: xs := by
  conv_lhs => unfold splitDot
  rw [if_neg h]

theorem splitDot_append {a r : Str} (h : ∀ c ∈ a, c ≠ '.') :
    splitDot (a ++ '.' :: r) = a :: splitDot r := by
  induction a with
  | nil => simp [splitDot]
  | cons c t ih =>
    show splitDot (c :: (t ++ '.' :: r)) = (c :: t) :: splitDot r
    rw [splitDot_cons_of_ne (h c (by simp)), ih fun x hx => h x (by simp [hx])]

theorem versionLike_of_shared {t : Str} (h : sharedTagB t = true) :
    isVersionLike t = true := by
  unfold sharedTagB at h
  rw [Option.isSome_iff_exists] at h
  obtain ⟨⟨a, b, c, d⟩, hp⟩ := h
  rcases parse_tag_some_iff.mp hp with ⟨-, hoffm⟩ | ⟨n, -, hdevf⟩
  · obtain ⟨d1, d2, d3, hne1, hne2, hne3, hs, -, -, -⟩ := hoffm
    exact isVersionLike_iff.mpr ⟨d1, d2, d3, [], hne1, hne2, hne3, by simp [hs]⟩
  · obtain ⟨d1, d2, d3, d4, hne1, hne2, hne3, hne4, hs, -, -, -, -⟩ := hdevf
    exact isVersionLike_iff.mpr
      ⟨d1, d2, d3, devLit ++ d4, hne1, hne2, hne3, by simp [hs]⟩

theorem resolveNext_off {latest lo d1 d2 d3 : Str} (hne1 : DigitsNE d1)
    (hne2 : DigitsNE d2) (hne3 : DigitsNE d3)
    (hsl : latest = d1 ++ '.' :: d2 ++ '.' :: d3) (hasEnv : Bool) :
    resolveNext hasEnv latest lo =
      mkOut latest lo
        (d1 ++ '.' :: d2 ++ '.' :: natToDigits (digitsToNat d3 + 1) ++ lit "-dev.1")
        false hasEnv := by
  have hoff : OffForm latest (digitsToNat d1) (digitsToNat d2) (digitsToNat d3) :=
    ⟨d1, d2, d3, hne1, hne2, hne3, hsl, rfl, rfl, rfl⟩
  have hdm := devMatch_eq_none_of_off hoff
  have hsplit : splitDot latest = [d1, d2, d3] := by
    rw [hsl, show d1 ++ '.' :: d2 ++ '.' :: d3 = d1 ++ '.' :: (d2 ++ '.' :: d3) by simp,
      splitDot_append fun c hc => digit_ne_dot (hne1.2 c hc),
      splitDot_append fun c hc => digit_ne_dot (hne2.2 c hc),
      splitDot_no_dot fun c hc => digit_ne_dot (hne3.2 c hc)]
  have hpy : pyInt d3 = some ((digitsToNat d3 : Int)) := pyInt_digits hne3.1 hne3.2
  simp only [resolveNext, hdm, hsplit, hpy, intToStr_natCast_succ]

theorem resolveNext_dev {latest lo d1 d2 d3 d4 : Str} (hne1 : DigitsNE d1)
    (hne2 : DigitsNE d2) (hne3 : DigitsNE d3) (hne4 : DigitsNE d4)
    (hsl : latest = d1 ++ '.' :: d2 ++ '.' :: d3 ++ devLit ++ d4) (hasEnv : Bool) :
    resolveNext hasEnv latest lo =
      mkOut latest lo
        ((d1 ++ '.' :: d2 ++ '.' :: d3) ++ devLit ++ natToDigits (digitsToNat d4 + 1))
        true hasEnv := by
  have hdm : devMatch latest = some (d1 ++ '.' :: d2 ++ '.' :: d3, digitsToNat d4) := by
    rw [hsl]
    exact devMatch_of_decomp hne1 hne2 hne3 hne4
  simp only [resolveNext, hdm]

/-- The claimed outcome of a resolver run on a shared-grammar tag list: with
`Lo` the last official tag and `L` the last tag overall, the latest tag is
`Lo` when `L` starts with `Lo` as a string prefix and `L` otherwise; when the
latest tag has a `-dev.N` suffix the next tag keeps its base and increments
`N`, and when it has none the next tag keeps major and minor verbatim,
increments the numeric patch and appends `-dev.1`; the run succeeds with the
full output record built from the latest official tag and this next tag. -/
def ResolverOutcomeSpec (hasEnv : Bool) (tags : List Str) : Prop :=
  (∃ d1 d2 d3 d4, DigitsNE d1 ∧ DigitsNE d2 ∧ DigitsNE d3 ∧ DigitsNE d4 ∧
    (if strStartsWith (tags.getLastD []) ((tags.filter isOfficialTag).getLastD [])
      then (tags.filter isOfficialTag).getLastD [] else tags.getLastD []) =
      d1 ++ '.' :: d2 ++ '.' :: d3 ++ devLit ++ d4 ∧
    resolve hasEnv tags =
      mkOut (d1 ++ '.' :: d2 ++ '.' :: d3 ++ devLit ++ d4)
        ((tags.filter isOfficialTag).getLastD [])
        ((d1 ++ '.' :: d2 ++ '.' :: d3) ++ devLit ++ natToDigits (digitsToNat d4 + 1))
        true hasEnv) ∨
  (∃ d1 d2 d3, DigitsNE d1 ∧ DigitsNE d2 ∧ DigitsNE d3 ∧
    (if strStartsWith (tags.getLastD []) ((tags.filter isOfficialTag).getLastD [])
      then (tags.filter isOfficialTag).getLastD [] else tags.getLastD []) =
      d1 ++ '.' :: d2 ++ '.' :: d3 ∧
    resolve hasEnv tags =
      mkOut (d1 ++ '.' :: d2 ++ '.' :: d3)
        ((tags.filter isOfficialTag).getLastD [])
        (d1 ++ '.' :: d2 ++ '.' :: natToDigits (digitsToNat d3 + 1) ++ lit "-dev.1")
        false hasEnv)

/-- C2: on a tool-sorted version-like tag list whose tags all match the shared
grammar, with at least one official tag, the resolver picks the latest tag by
the single prefix-check correction and computes the next dev tag by the two
claimed rules, succeeding with the corresponding outputs. -/
theorem c2_resolver_computation (hasEnv : Bool) (tags : List Str)
    (h1 : ∀ t ∈ tags, sharedTagB t = true)
    (h2 : tags.filter isOfficialTag ≠ []) :
    ResolverOutcomeSpec hasEnv tags := by
  have hvt : tags.filter isVersionLike = tags :=
    List.filter_eq_self.mpr fun t ht => versionLike_of_shared (h1 t ht)
  have htne : tags ≠ [] := by
    intro he
    apply h2
    rw [he]
    rfl
  have hres : resolve hasEnv tags =
      resolveNext hasEnv
        (if strStartsWith (tags.getLastD []) ((tags.filter isOfficialTag).getLastD [])
          then (tags.filter isOfficialTag).getLastD [] else tags.getLastD [])
        ((tags.filter isOfficialTag).getLastD []) := by
    simp only [resolve, hvt]
    rw [if_neg htne, if_neg h2]
  unfold ResolverOutcomeSpec
  set latest := if strStartsWith (tags.getLastD [])
      ((tags.filter isOfficialTag).getLastD [])
    then (tags.filter isOfficialTag).getLastD [] else tags.getLastD [] with hlatdef
  have hlat_mem : latest ∈ tags := by
    rw [hlatdef]
    by_cases hsw : strStartsWith (tags.getLastD [])
        ((tags.filter isOfficialTag).getLastD []) = true
    · rw [if_pos hsw]
      exact List.mem_of_mem_filter (getLastD_mem h2 [])
    · rw [if_neg hsw]
      exact getLastD_mem htne []
  have hsh := h1 latest hlat_mem
  unfold sharedTagB at hsh
  rw [Option.isSome_iff_exists] at hsh
  obtain ⟨⟨a, b, c, d⟩, hp⟩ := hsh
  rcases parse_tag_some_iff.mp hp with ⟨-, hoffm⟩ | ⟨n, -, hdevf⟩
  · obtain ⟨d1, d2, d3, hne1, hne2, hne3, hsl, -, -, -⟩ := hoffm
    right
    refine ⟨d1, d2, d3, hne1, hne2, hne3, hsl, ?_⟩
    rw [hres, resolveNext_off hne1 hne2 hne3 hsl, hsl]
  · obtain ⟨d1, d2, d3, d4, hne1, hne2, hne3, hne4, hsl, -, -, -, -⟩ := hdevf
    left
    refine ⟨d1, d2, d3, d4, hne1, hne2, hne3, hne4, hsl, ?_⟩
    rw [hres, resolveNext_dev hne1 hne2 hne3 hne4 hsl, hsl]

theorem c2_resolver_computation_witness :
    ResolverOutcomeSpec false [lit "1.2.3", lit "1.2.3-dev.1"] :=
  c2_resolver_computation false [lit "1.2.3", lit "1.2.3-dev.1"]
    (by decide) (by decide)

/-- C8: with no version-like tag at all, or with version-like tags but no
strictly official tag, the resolver prints only the descriptive error, exits
with code 1, and writes neither output variable to stdout nor to the CI
output file. -/
theorem c8_resolver_fatal_errors (hasEnv : Bool) (tags : List Str) :
    ((∀ t ∈ tags, isVersionLike t = false) →
      resolve hasEnv tags =
        { stdout := [lit "Error: No version tags found in repository!"],
          envLines := [], exit := ExitKind.err 1 }) ∧
    (((∃ t ∈ tags, isVersionLike t = true) ∧ (∀ t ∈ tags, isOfficialTag t = false)) →
      resolve hasEnv tags =
        { stdout := [lit "Error: Latest official release tag (X.Y.Z) not found!"],
          envLines := [], exit := ExitKind.err 1 }) := by
  constructor
  · intro h
    have hv : tags.filter isVersionLike = [] :=
      List.filter_eq_nil_iff.mpr fun t ht => by simp [h t ht]
    simp [resolve, hv]
  · rintro ⟨⟨t0, ht0, hv0⟩, hnooff⟩
    have hv : tags.filter isVersionLike ≠ [] := by
      intro he
      have hm : t0 ∈ tags.filter isVersionLike := List.mem_filter.mpr ⟨ht0, hv0⟩
      rw [he] at hm
      cases hm
    have ho : (tags.filter isVersionLike).filter isOfficialTag = [] :=
      List.filter_eq_nil_iff.mpr fun t ht => by
        simp [hnooff t (List.mem_of_mem_filter ht)]
    simp [resolve, hv, ho]

/-- C9: when every version-like tag of the list matches the shared grammar,
the resolver never reaches an uncaught exception: it either stops at one of
its two checked fatal errors or completes the next-tag computation. -/
theorem c9_arith_branch_safe (hasEnv : Bool) (tags : List Str)
    (h : ∀ t ∈ tags, isVersionLike t = true → sharedTagB t = true) :
    (resolve hasEnv tags).exit ≠ ExitKind.exn := by
  by_cases hv : tags.filter isVersionLike = []
  · simp [resolve, hv]
  · by_cases ho : (tags.filter isVersionLike).filter isOfficialTag = []
    · simp [resolve, hv, ho]
    · have hres : resolve hasEnv tags =
          resolveNext hasEnv
            (if strStartsWith ((tags.filter isVersionLike).getLastD [])
                (((tags.filter isVersionLike).filter isOfficialTag).getLastD [])
              then ((tags.filter isVersionLike).filter isOfficialTag).getLastD []
              else (tags.filter isVersionLike).getLastD [])
            (((tags.filter isVersionLike).filter isOfficialTag).getLastD []) := by
        simp only [resolve]
        rw [if_neg hv, if_neg ho]
      have hlat_vt : (if strStartsWith ((tags.filter isVersionLike).getLastD [])
            (((tags.filter isVersionLike).filter isOfficialTag).getLastD [])
          then ((tags.filter isVersionLike).filter isOfficialTag).getLastD []
          else (tags.filter isVersionLike).getLastD []) ∈
          tags.filter isVersionLike := by
        by_cases hsw : strStartsWith ((tags.filter isVersionLike).getLastD [])
            (((tags.filter isVersionLike).filter isOfficialTag).getLastD []) = true
        · rw [if_pos hsw]
          exact List.mem_of_mem_filter (getLastD_mem ho [])
        · rw [if_neg hsw]
          exact getLastD_mem hv []
      obtain ⟨hlt, hlv⟩ := List.mem_filter.mp hlat_vt
      have hsh := h _ hlt hlv
      rw [hres]
      unfold sharedTagB at hsh
      rw [Option.isSome_iff_exists] at hsh
      obtain ⟨⟨a, b, c, d⟩, hp⟩ := hsh
      rcases parse_tag_some_iff.mp hp with ⟨-, hoffm⟩ | ⟨n, -, hdevf⟩
      · obtain ⟨d1, d2, d3, hne1, hne2, hne3, hsl, -, -, -⟩ := hoffm
        rw [resolveNext_off hne1 hne2 hne3 hsl]
        simp [mkOut]
      · obtain ⟨d1, d2, d3, d4, hne1, hne2, hne3, hne4, hsl, -, -, -, -⟩ := hdevf
        rw [resolveNext_dev hne1 hne2 hne3 hne4 hsl]
        simp [mkOut]

theorem c9_arith_branch_safe_witness :
    (resolve false [lit "foo", lit "0.0.9", lit "1.0.0-dev.3"]).exit ≠ ExitKind.exn :=
  c9_arith_branch_safe false [lit "foo", lit "0.0.9", lit "1.0.0-dev.3"] (by decide)

/-- C4 as stated is false: the resolver's filter keeps `"1.2.3-rc.1"`, which
matches no form of the shared grammar `^\d+\.\d+\.\d+(-dev\.\d+)?$`. -/
theorem c4_counterexample :
    isVersionLike (lit "1.2.3-rc.1") = true ∧
    (∀ a b c d, ¬GrammarFull (lit "1.2.3-rc.1") a b c d) := by
  refine ⟨by decide, fun a b c d hg => ?_⟩
  have hsome := parse_tag_some_iff.mpr hg
  have hnone : parse_tag (lit "1.2.3-rc.1") = none := by decide
  rw [hnone] at hsome
  exact Option.noConfusion hsome

/-- C4 amended: the resolver's version-like filter keeps exactly the strings
matching `^[0-9]+\.[0-9]+\.[0-9]+.*$` — a strict superset of the shared
grammar: every shared-grammar tag is kept, but so are strings such as
`"1.2.3-rc.1"` and `"1.2.3.4"`. -/
theorem c4_filter_language (s : Str) :
    (isVersionLike s = true ↔ VersionPre s) ∧
    (sharedTagB s = true → isVersionLike s = true) :=
  ⟨isVersionLike_iff, versionLike_of_shared⟩

example : resolve false [lit "1.2.3", lit "1.2.3-dev.1"] =
    mkOut (lit "1.2.3") (lit "1.2.3") (lit "1.2.4-dev.1") false false := by decide
example : resolve false [lit "1.2.3", lit "1.2.4-dev.1", lit "1.2.4-dev.2"] =
    mkOut (lit "1.2.4-dev.2") (lit "1.2.3") (lit "1.2.4-dev.3") true false := by decide
example : resolve true [lit "foo"] =
    { stdout := [lit "Error: No version tags found in repository!"],
      envLines := [], exit := ExitKind.err 1 } := by decide
example : (resolve false [lit "0.0.1", lit "1.2.3 "]).exit = ExitKind.ok := by decide
example : (resolve false [lit "0.0.1", lit "1.2.3-rc.1"]).exit = ExitKind.exn := by
  decide

example : sortedOfficial [lit "1.9.0", lit "1.10.0", lit "1.2.0"] =
    [(1, 2, 0), (1, 9, 0), (1, 10, 0)] := by decide
example : tagsToDelete [lit "1.0.0", lit "1.1.0", lit "1.2.0", lit "1.0.0-dev.1",
    lit "1.1.0-dev.1", lit "1.2.0-dev.1", lit "1.2.0-dev.2"] =
    [lit "1.0.0-dev.1"] := by decide

example : parse_tag (lit "1.6.2-dev.10") = some (1, 6, 2, some 10) := by decide
example : parse_tag (lit "v1.2.3") = none := by decide
example : parse_tag (lit "1.2") = none := by decide
example : parse_tag (lit "1.2.3.4") = none := by decide
example : parse_tag (lit "1.2.3-rc.1") = none := by decide
example : parse_tag (lit "01.002.3-dev.007") = some (1, 2, 3, some 7) := by decide

end MetaplayCli
